import Mathlib

set_option maxRecDepth 8000

/-!
Verification of the timer subsystem of `src/timers.c` (merecat).

The C file implements a registry of one-shot and periodic timers kept in
`HASH_SIZE = 67` hash buckets, each bucket a doubly linked list sorted
ascending by trigger time, together with a free-list pool of timer records
and the diagnostic counters `alloc_count`, `active_count`, `free_count`.

Shallow embedding conventions:
* `struct timeval` becomes `Timeval` with `Int` fields (C `long`).
* C `/` and `%` on `long` truncate toward zero; they are embedded as
  `Int.tdiv` / `Int.tmod`.
* The cast `(unsigned int)x` in `hash` is `x mod 2^32` (`u32`).
* Pointer-linked bucket lists become `List Timer`; a record's identity
  (its address in C) becomes the `id` field, assigned from a counter
  `next_id` when `malloc` is taken and recycled through the free list.
* `malloc` success/failure is an explicit boolean oracle `mallocOk`
  passed to `tmr_create`.
* Callbacks are inert: invoking `(t->cb)(t->arg, now)` is recorded as a
  `Fire` event `(cb, arg, now)`.  (This models the claims' setting of
  callbacks that do not mutate the registry.)
* The `now == NULL` branch of `tmr_create` (reading the wall clock via
  `tmr_prepare_timeval`) is outside the model; `now` is always supplied.
* The pointer walk of `tmr_run` captures `next = t->next` before firing.
  We model the walk as a recursion on the chain of captured successors;
  when `l_resort` reinserts the fired timer into the same bucket past the
  captured cursor, the chain gets it back at the corresponding position.
  The recursion is bounded by explicit fuel; the fuel is generous enough
  that it is never exhausted in any execution considered by the claims,
  and the structural invariants proved here are preserved by every single
  step, hence hold for every fuel value.
-/

/-- Number of hash buckets, `#define HASH_SIZE 67`. -/
def HASH_SIZE : Nat := 67

/-- The sentinel returned by `tmr_mstimeout` when no timer is active
(`INFTIM`, i.e. `-1`). -/
def INFTIM : Int := -1

/-- C `struct timeval`: seconds and microseconds as `long`. -/
structure Timeval where
  tv_sec : Int
  tv_usec : Int
deriving DecidableEq

/-- The comparison used by `l_add` to decide that timer time `a` goes
before list entry time `b`:
`a.tv_sec < b.tv_sec || (a.tv_sec == b.tv_sec && a.tv_usec <= b.tv_usec)`. -/
def tvLe (a b : Timeval) : Prop :=
  a.tv_sec < b.tv_sec ∨ (a.tv_sec = b.tv_sec ∧ a.tv_usec ≤ b.tv_usec)

instance (a b : Timeval) : Decidable (tvLe a b) := by
  unfold tvLe; infer_instance

/-- The comparison used by `tmr_run` to stop the walk: the entry's time is
strictly after `now`:
`t->time.tv_sec > now->tv_sec || (t->time.tv_sec == now->tv_sec && t->time.tv_usec > now->tv_usec)`. -/
def tvAfter (a now : Timeval) : Prop :=
  now.tv_sec < a.tv_sec ∨ (a.tv_sec = now.tv_sec ∧ now.tv_usec < a.tv_usec)

instance (a now : Timeval) : Decidable (tvAfter a now) := by
  unfold tvAfter; infer_instance

/-- Total number of microseconds represented by a `Timeval`. -/
def usTotal (tv : Timeval) : Int :=
  tv.tv_sec * 1000000 + tv.tv_usec

/-- A `Timeval` whose microsecond field is in `[0, 1000000)`. -/
def tvNormal (tv : Timeval) : Prop :=
  0 ≤ tv.tv_usec ∧ tv.tv_usec < 1000000

instance (tv : Timeval) : Decidable (tvNormal tv) := by
  unfold tvNormal; infer_instance

/-- The trigger arithmetic shared by `tmr_create`, `tmr_run` (periodic
reschedule) and `tmr_reset`:
`tv_sec += msecs / 1000; tv_usec += (msecs % 1000) * 1000;` followed by the
`if (tv_usec >= 1000000) { tv_sec += tv_usec / 1000000; tv_usec %= 1000000; }`
normalization, with C truncating division. -/
def addMsecs (now : Timeval) (msecs : Int) : Timeval :=
  if 1000000 ≤ now.tv_usec + Int.tmod msecs 1000 * 1000 then
    { tv_sec := now.tv_sec + Int.tdiv msecs 1000 +
        Int.tdiv (now.tv_usec + Int.tmod msecs 1000 * 1000) 1000000
      tv_usec := Int.tmod (now.tv_usec + Int.tmod msecs 1000 * 1000) 1000000 }
  else
    { tv_sec := now.tv_sec + Int.tdiv msecs 1000
      tv_usec := now.tv_usec + Int.tmod msecs 1000 * 1000 }

/-- C cast `(unsigned int)x` applied to a `long`: value modulo `2^32`. -/
def u32 (x : Int) : Nat :=
  (Int.emod x 4294967296).toNat

/-- The hash function:
`((unsigned int)tv_sec ^ (unsigned int)tv_usec) % HASH_SIZE`. -/
def tvHash (tv : Timeval) : Nat :=
  Nat.xor (u32 tv.tv_sec) (u32 tv.tv_usec) % HASH_SIZE

/-- A timer record (`struct timer`).  `id` models the record's address;
the intrusive `prev`/`next` links are represented by list positions. -/
structure Timer where
  id : Nat
  cb : Nat
  arg : Nat
  time : Timeval
  msecs : Int
  periodic : Bool
  hash : Nat
deriving DecidableEq

/-- One callback invocation `(t->cb)(t->arg, now)` recorded by `tmr_run`. -/
structure Fire where
  cb : Nat
  arg : Nat
  now : Timeval
deriving DecidableEq

/-- The global state of `timers.c`: the bucket array `timers[HASH_SIZE]`,
the free list `free_timers`, the three diagnostic counters, plus the
allocator counter `next_id` producing fresh record identities. -/
structure TmrState where
  buckets : Nat → List Timer
  free_timers : List Timer
  alloc_count : Int
  active_count : Int
  free_count : Int
  next_id : Nat

/-- State after `tmr_init()`: all buckets and the free list empty, all
counters zero. -/
def tmr_init : TmrState :=
  { buckets := fun _ => []
    free_timers := []
    alloc_count := 0
    active_count := 0
    free_count := 0
    next_id := 0 }

/-- Replace bucket `h` of the state. -/
def setBucket (s : TmrState) (h : Nat) (l : List Timer) : TmrState :=
  { s with buckets := fun h' => if h' = h then l else s.buckets h' }

/-- The sorted insertion of `l_add`: the new timer is placed before the
first entry whose time is not earlier (`tvLe t.time entry.time`),
otherwise at the tail. -/
def l_addList (t : Timer) : List Timer → List Timer
  | [] => [t]
  | t2 :: rest =>
    if tvLe t.time t2.time then t :: t2 :: rest else t2 :: l_addList t rest

/-- Function `l_add(t)`: insert `t` into bucket `t->hash`. -/
def l_addS (t : Timer) (s : TmrState) : TmrState :=
  setBucket s t.hash (l_addList t (s.buckets t.hash))

/-- Function `l_remove(t)`: unlink `t` from bucket `t->hash` (the record is
identified by its address, here `id`). -/
def l_removeS (t : Timer) (s : TmrState) : TmrState :=
  setBucket s t.hash (List.eraseP (fun x => x.id == t.id) (s.buckets t.hash))

/-- Operation `tmr_create(now, cb, arg, msecs, periodic)`.  `mallocOk` is the
allocation oracle for the `malloc` branch: the free list, when non-empty,
is always popped without consulting it. -/
def tmr_create (mallocOk : Bool) (now : Timeval) (cb arg : Nat)
    (msecs : Int) (periodic : Bool) (s : TmrState) : Option Timer × TmrState :=
  match s.free_timers with
  | tf :: rest =>
    let time := addMsecs now msecs
    let t : Timer :=
      { id := tf.id, cb := cb, arg := arg, time := time, msecs := msecs
        periodic := periodic, hash := tvHash time }
    let s1 := { s with free_timers := rest, free_count := s.free_count - 1 }
    let s2 := l_addS t s1
    (some t, { s2 with active_count := s2.active_count + 1 })
  | [] =>
    if mallocOk then
      let time := addMsecs now msecs
      let t : Timer :=
        { id := s.next_id, cb := cb, arg := arg, time := time, msecs := msecs
          periodic := periodic, hash := tvHash time }
      let s1 := { s with alloc_count := s.alloc_count + 1, next_id := s.next_id + 1 }
      let s2 := l_addS t s1
      (some t, { s2 with active_count := s2.active_count + 1 })
    else
      (none, s)

/-- Operation `tmr_cancel(t)` for a non-NULL handle: unlink from the active list,
decrement `active_count`, push onto the free list, increment
`free_count`. -/
def tmr_cancel (t : Timer) (s : TmrState) : TmrState :=
  let s1 := l_removeS t s
  { s1 with active_count := s1.active_count - 1
            free_timers := t :: s1.free_timers
            free_count := s1.free_count + 1 }

/-- Operation `tmr_reset(now, t)` for a non-NULL handle: recompute the trigger from
`now` and the stored `msecs`, then `l_resort` (remove with the old hash,
recompute the hash, re-insert). -/
def tmr_reset (now : Timeval) (t : Timer) (s : TmrState) : TmrState :=
  let t1 : Timer := { t with time := addMsecs now t.msecs }
  let t2 : Timer := { t1 with hash := tvHash t1.time }
  l_addS t2 (l_removeS t1 s)

/-- Reschedule of a periodic timer inside `tmr_run`: advance the trigger
by `msecs` relative to the previous trigger, then recompute the hash
(`l_resort`). -/
def resched (t : Timer) : Timer :=
  let t1 : Timer := { t with time := addMsecs t.time t.msecs }
  { t1 with hash := tvHash t1.time }

/-- One bucket walk of `tmr_run`, as a recursion on the chain of
`next = t->next` pointers captured before each callback.  When the fired
timer is periodic and `l_resort` reinserts it into the same bucket `h`
strictly past the captured cursor (only possible when the cursor entry's
time is earlier than the new trigger), the reinserted record re-enters
the chain at the position `l_add` gives it.  `fuel` bounds the recursion;
every C execution considered here completes within the fuel supplied by
`bucketFuel`. -/
def runChain (now : Timeval) (h : Nat) :
    Nat → List Timer → TmrState → List Fire → TmrState × List Fire
  | 0, _, s, evs => (s, evs)
  | _ + 1, [], s, evs => (s, evs)
  | n + 1, t :: rest, s, evs =>
    if tvAfter t.time now then
      (s, evs)
    else
      let evs' := evs ++ [{ cb := t.cb, arg := t.arg, now := now }]
      if t.periodic then
        let t2 := resched t
        let s2 := l_addS t2 (l_removeS t s)
        let rest' :=
          if t2.hash = h then
            match rest with
            | [] => []
            | n2 :: tail =>
              if tvLe t2.time n2.time then n2 :: tail else n2 :: l_addList t2 tail
          else rest
        runChain now h n rest' s2 evs'
      else
        runChain now h n rest (tmr_cancel t s) evs'

/-- Fuel for one bucket walk: the chain length plus, for every entry, a
bound on how often a periodic entry can refire during this call (each
refire advances its trigger by at least one millisecond of the remaining
gap to `now` for positive periods). -/
def bucketFuel (now : Timeval) (l : List Timer) : Nat :=
  l.length +
    (l.map (fun t => (usTotal now - usTotal t.time).toNat / 1000 + 2)).sum

/-- One outer-loop iteration of `tmr_run`: read `timers[h]` and walk it. -/
def runStep (now : Timeval) (acc : TmrState × List Fire) (h : Nat) : TmrState × List Fire :=
  runChain now h (bucketFuel now (acc.1.buckets h)) (acc.1.buckets h) acc.1 acc.2

/-- Operation `tmr_run(now)`: walk every bucket in index order, firing the due
prefix of each sorted list; returns the new state and the sequence of
callback invocations. -/
def tmr_run (now : Timeval) (s : TmrState) : TmrState × List Fire :=
  (List.range HASH_SIZE).foldl (runStep now) (s, [])

/-- Operation `tmr_cleanup()`: free every record on the free list, decrementing
`free_count` and `alloc_count` for each. -/
def tmr_cleanup (s : TmrState) : TmrState :=
  match hf : s.free_timers with
  | [] => s
  | _ :: rest =>
    tmr_cleanup { s with free_timers := rest
                         free_count := s.free_count - 1
                         alloc_count := s.alloc_count - 1 }
termination_by s.free_timers.length
decreasing_by simp [hf]

/-- The `while (timers[h]) tmr_cancel(timers[h]);` loop of `tmr_destroy`,
bounded by the initial bucket length (each cancel of the head removes
it). -/
def drainGo (h : Nat) : Nat → TmrState → TmrState
  | 0, s => s
  | n + 1, s =>
    match s.buckets h with
    | [] => s
    | t :: _ => drainGo h n (tmr_cancel t s)

/-- Operation `tmr_destroy()`: cancel every active timer bucket by bucket, then
`tmr_cleanup()`. -/
def tmr_destroy (s : TmrState) : TmrState :=
  tmr_cleanup
    ((List.range HASH_SIZE).foldl (fun s h => drainGo h (s.buckets h).length s) s)

/-- The millisecond distance computed by `tmr_mstimeout` for one timer:
`(t->time.tv_sec - now->tv_sec) * 1000 + (t->time.tv_usec - now->tv_usec) / 1000`
with C truncating division. -/
def mOf (now : Timeval) (t : Timer) : Int :=
  (t.time.tv_sec - now.tv_sec) * 1000 + Int.tdiv (t.time.tv_usec - now.tv_usec) 1000

/-- Operation `tmr_mstimeout(now)` in state-passing form.  The body only reads the
bucket heads; the state is threaded through unchanged.  The accumulator
mirrors `gotone`/`msecs`: `none` while no head has been seen, then the
running minimum. -/
def tmr_mstimeoutS (now : Timeval) (s : TmrState) : Int × TmrState :=
  let r :=
    (List.range HASH_SIZE).foldl
      (fun (acc : Option Int × TmrState) h =>
        match (acc.2.buckets h).head? with
        | none => acc
        | some t =>
          let m := mOf now t
          match acc.1 with
          | none => (some m, acc.2)
          | some best => (some (if m < best then m else best), acc.2))
      (none, s)
  match r.1 with
  | none => (INFTIM, r.2)
  | some msecs => (if msecs ≤ 0 then 500 else msecs, r.2)

/-- The value returned by `tmr_mstimeout(now)`. -/
def tmr_mstimeout (now : Timeval) (s : TmrState) : Int :=
  (tmr_mstimeoutS now s).1

/-- The public operations of the module, with `now` always supplied and
handles denoted by record identities.  `create` carries the allocation
oracle for its `malloc` branch. -/
inductive Op where
  | create (mallocOk : Bool) (now : Timeval) (cb arg : Nat) (msecs : Int) (periodic : Bool)
  | cancel (id : Nat)
  | reset (now : Timeval) (id : Nat)
  | run (now : Timeval)
  | cleanup
  | destroy

/-- Find the active timer with identity `i`, scanning buckets in index
order (resolves an id-handle to the record it denotes). -/
def findTimer (s : TmrState) (i : Nat) : Option Timer :=
  ((List.range HASH_SIZE).map s.buckets).flatten.find? (fun t => t.id == i)

/-- State transition of one public operation.  `cancel`/`reset` of an id
that denotes no active timer is the no-op of the NULL-handle check. -/
def stepOp (op : Op) (s : TmrState) : TmrState :=
  match op with
  | .create ok now cb arg ms per => (tmr_create ok now cb arg ms per s).2
  | .cancel i =>
    match findTimer s i with
    | some t => tmr_cancel t s
    | none => s
  | .reset now i =>
    match findTimer s i with
    | some t => tmr_reset now t s
    | none => s
  | .run now => (tmr_run now s).1
  | .cleanup => tmr_cleanup s
  | .destroy => tmr_destroy s

/-- State reached from `tmr_init` by a sequence of public operations. -/
def runOps (ops : List Op) : TmrState :=
  ops.foldl (fun s op => stepOp op s) tmr_init

/-- The counter equation checked by `tmr_logstats`:
`active_count + free_count == alloc_count`. -/
def counterInv (s : TmrState) : Prop :=
  s.alloc_count = s.active_count + s.free_count

/-! ### Arithmetic helpers for C truncating division and time values -/

/-- C truncating division by a nonnegative divisor, expressed through
Euclidean division. -/
theorem tdivChar (x k : Int) (hk : 0 ≤ k) :
    Int.tdiv x k = if 0 ≤ x then x / k else -((-x) / k) := by
  split
  · exact Int.tdiv_eq_ediv (by omega) hk
  · rw [show x = -(-x) by ring, Int.neg_tdiv, Int.neg_neg]
    rw [Int.tdiv_eq_ediv (by omega) hk]

/-- Truncating division by 1000 is monotone. -/
theorem tdiv1000_mono {x y : Int} (h : x ≤ y) :
    Int.tdiv x 1000 ≤ Int.tdiv y 1000 := by
  rw [tdivChar x 1000 (by norm_num), tdivChar y 1000 (by norm_num)]
  split <;> split <;> omega

/-- Increasing the numerator by less than a million changes the truncated
millisecond count by at most 1000. -/
theorem tdiv1000_shift {x y : Int} (h : y ≤ x + 999999) :
    Int.tdiv y 1000 ≤ Int.tdiv x 1000 + 1000 := by
  rw [tdivChar x 1000 (by norm_num), tdivChar y 1000 (by norm_num)]
  split <;> split <;> omega

/-- Lower bound on the truncated millisecond count. -/
theorem tdiv1000_lb {x : Int} (h : -999999 ≤ x) : -999 ≤ Int.tdiv x 1000 := by
  rw [tdivChar x 1000 (by norm_num)]
  split <;> omega

/-- Nonnegative numerator gives a nonnegative truncated quotient. -/
theorem tdiv1000_nonneg {x : Int} (h : 0 ≤ x) : 0 ≤ Int.tdiv x 1000 := by
  rw [tdivChar x 1000 (by norm_num)]
  split <;> omega

theorem tvAfter_iff_not_tvLe (a b : Timeval) : tvAfter a b ↔ ¬ tvLe a b := by
  unfold tvAfter tvLe; omega

theorem tvLe_total (a b : Timeval) : tvLe a b ∨ tvLe b a := by
  unfold tvLe; omega

theorem tvLe_trans {a b c : Timeval} (h1 : tvLe a b) (h2 : tvLe b c) : tvLe a c := by
  unfold tvLe at *; omega

theorem not_tvAfter_self (a : Timeval) : ¬ tvAfter a a := by
  unfold tvAfter; omega

/-- On normal time values the `l_add` comparison agrees with comparison of
total microseconds. -/
theorem tvLe_iff_usTotal {a b : Timeval} (ha : tvNormal a) (hb : tvNormal b) :
    tvLe a b ↔ usTotal a ≤ usTotal b := by
  unfold tvLe usTotal tvNormal at *
  omega

/-- On normal time values `tvAfter` agrees with strict comparison of total
microseconds. -/
theorem tvAfter_iff_usTotal {a b : Timeval} (ha : tvNormal a) (hb : tvNormal b) :
    tvAfter a b ↔ usTotal b < usTotal a := by
  rw [tvAfter_iff_not_tvLe, tvLe_iff_usTotal ha hb]
  omega

/-- The trigger arithmetic adds exactly `1000 * msecs` microseconds. -/
theorem usTotal_addMsecs (tv : Timeval) (p : Int) :
    usTotal (addMsecs tv p) = usTotal tv + 1000 * p := by
  unfold addMsecs usTotal
  have h1 := Int.tdiv_add_tmod p 1000
  have h2 := Int.tdiv_add_tmod (tv.tv_usec + Int.tmod p 1000 * 1000) 1000000
  split <;> simp only [] <;> omega

/-- For a nonnegative delay the trigger arithmetic yields a normal time
value from a normal one. -/
theorem addMsecs_normal {tv : Timeval} (h : tvNormal tv) {p : Int} (hp : 0 ≤ p) :
    tvNormal (addMsecs tv p) := by
  unfold addMsecs tvNormal at *
  have hm : Int.tmod p 1000 = p % 1000 := Int.tmod_eq_emod hp (by norm_num)
  have h2 := Int.tdiv_add_tmod (tv.tv_usec + Int.tmod p 1000 * 1000) 1000000
  have h3 : 0 ≤ tv.tv_usec + Int.tmod p 1000 * 1000 := by rw [hm]; omega
  have h4 : Int.tmod (tv.tv_usec + Int.tmod p 1000 * 1000) 1000000 =
      (tv.tv_usec + Int.tmod p 1000 * 1000) % 1000000 :=
    Int.tmod_eq_emod h3 (by norm_num)
  split <;> simp only [] <;> rw [hm] at * <;> omega

/-- A strictly positive period strictly advances a normal trigger. -/
theorem addMsecs_after {tv : Timeval} (h : tvNormal tv) {p : Int} (hp : 1 ≤ p) :
    tvAfter (addMsecs tv p) tv := by
  rw [tvAfter_iff_usTotal (addMsecs_normal h (by omega)) h, usTotal_addMsecs]
  omega

/-- Monotonicity of the per-timer millisecond distance along the bucket
order, for normal trigger times. -/
theorem mOf_mono {now : Timeval} {a b : Timer}
    (hle : tvLe a.time b.time) (hna : tvNormal a.time) (hnb : tvNormal b.time) :
    mOf now a ≤ mOf now b := by
  unfold mOf
  rcases hle with hlt | ⟨hs, hu⟩
  · have hsh : Int.tdiv (a.time.tv_usec - now.tv_usec) 1000 ≤
        Int.tdiv (b.time.tv_usec - now.tv_usec) 1000 + 1000 := by
      apply tdiv1000_shift
      unfold tvNormal at hna hnb
      omega
    nlinarith
  · rw [hs]
    have := tdiv1000_mono (show a.time.tv_usec - now.tv_usec ≤ b.time.tv_usec - now.tv_usec by omega)
    omega

/-- A timer strictly after a normal `now`, with a normal trigger, has a
nonnegative millisecond distance. -/
theorem mOf_nonneg {now : Timeval} {t : Timer}
    (h : tvAfter t.time now) (hn : tvNormal t.time) (hnow : now.tv_usec ≤ 999999) :
    0 ≤ mOf now t := by
  unfold mOf
  unfold tvAfter tvNormal at *
  rcases h with hlt | ⟨hs, hu⟩
  · have := tdiv1000_lb (show -999999 ≤ t.time.tv_usec - now.tv_usec by omega)
    nlinarith
  · rw [hs]
    have := tdiv1000_nonneg (show 0 ≤ t.time.tv_usec - now.tv_usec by omega)
    omega

/-- A trigger in the same second as `now`, less than one millisecond
ahead, has millisecond distance exactly zero. -/
theorem mOf_subms {now : Timeval} {t : Timer}
    (hs : t.time.tv_sec = now.tv_sec)
    (h1 : now.tv_usec < t.time.tv_usec)
    (h2 : t.time.tv_usec < now.tv_usec + 1000) :
    mOf now t = 0 := by
  unfold mOf
  rw [hs]
  rw [tdivChar _ 1000 (by norm_num)]
  split <;> omega

/-! ### Projection lemmas for the state operations -/

@[simp] theorem setBucket_alloc (s : TmrState) (h : Nat) (l : List Timer) :
    (setBucket s h l).alloc_count = s.alloc_count := rfl

@[simp] theorem setBucket_active (s : TmrState) (h : Nat) (l : List Timer) :
    (setBucket s h l).active_count = s.active_count := rfl

@[simp] theorem setBucket_free (s : TmrState) (h : Nat) (l : List Timer) :
    (setBucket s h l).free_count = s.free_count := rfl

@[simp] theorem setBucket_free_timers (s : TmrState) (h : Nat) (l : List Timer) :
    (setBucket s h l).free_timers = s.free_timers := rfl

@[simp] theorem setBucket_next_id (s : TmrState) (h : Nat) (l : List Timer) :
    (setBucket s h l).next_id = s.next_id := rfl

@[simp] theorem setBucket_buckets (s : TmrState) (h : Nat) (l : List Timer) (h' : Nat) :
    (setBucket s h l).buckets h' = if h' = h then l else s.buckets h' := rfl

/-- Generic invariant preservation along a left fold. -/
theorem foldl_inv {α : Type} {β : Type} (P : β → Prop) (f : β → α → β)
    (hstep : ∀ b a, P b → P (f b a)) :
    ∀ (l : List α) (b : β), P b → P (l.foldl f b) := by
  intro l
  induction l with
  | nil => intro b hb; exact hb
  | cons x xs ih => intro b hb; exact ih _ (hstep _ _ hb)

/-! ### Claim C1: the counter equation is an invariant -/

theorem counterInv_cancel {s : TmrState} (t : Timer) (h : counterInv s) :
    counterInv (tmr_cancel t s) := by
  unfold counterInv tmr_cancel l_removeS at *
  simp
  omega

theorem counterInv_create {s : TmrState} (ok : Bool) (now : Timeval) (cb arg : Nat)
    (ms : Int) (per : Bool) (h : counterInv s) :
    counterInv (tmr_create ok now cb arg ms per s).2 := by
  unfold counterInv tmr_create at *
  cases hf : s.free_timers with
  | cons tf rest => simp [l_addS]; omega
  | nil =>
    cases ok with
    | true => simp [l_addS]; omega
    | false => simpa using h

theorem counterInv_reset {s : TmrState} (now : Timeval) (t : Timer) (h : counterInv s) :
    counterInv (tmr_reset now t s) := by
  unfold counterInv tmr_reset l_addS l_removeS at *
  simpa using h

theorem counterInv_runChain (now : Timeval) (h : Nat) :
    ∀ (fuel : Nat) (chain : List Timer) (s : TmrState) (evs : List Fire),
      counterInv s → counterInv (runChain now h fuel chain s evs).1 := by
  intro fuel
  induction fuel with
  | zero => intro chain s evs hs; simpa [runChain] using hs
  | succ n ih =>
    intro chain s evs hs
    cases chain with
    | nil => simpa [runChain] using hs
    | cons t rest =>
      rw [runChain]
      split
      · simpa using hs
      · split
        · apply ih
          unfold counterInv l_addS l_removeS at *
          simpa using hs
        · exact ih _ _ _ (counterInv_cancel t hs)

theorem counterInv_run {s : TmrState} (now : Timeval) (h : counterInv s) :
    counterInv (tmr_run now s).1 := by
  unfold tmr_run
  exact foldl_inv (fun (acc : TmrState × List Fire) => counterInv acc.1) (runStep now)
    (fun b a hb => counterInv_runChain now a _ _ _ _ hb) (List.range HASH_SIZE) (s, []) h

theorem counterInv_cleanup {s : TmrState} (h : counterInv s) :
    counterInv (tmr_cleanup s) := by
  induction s using tmr_cleanup.induct with
  | case1 s hf => rw [tmr_cleanup, hf]; exact h
  | case2 s tf rest hf ih =>
    rw [tmr_cleanup, hf]
    apply ih
    unfold counterInv at *
    simp
    omega

theorem counterInv_drainGo (h : Nat) :
    ∀ (fuel : Nat) (s : TmrState), counterInv s → counterInv (drainGo h fuel s) := by
  intro fuel
  induction fuel with
  | zero => intro s hs; simpa [drainGo] using hs
  | succ n ih =>
    intro s hs
    rw [drainGo]
    cases hb : s.buckets h with
    | nil => exact hs
    | cons t rest => exact ih _ (counterInv_cancel t hs)

theorem counterInv_destroy {s : TmrState} (h : counterInv s) :
    counterInv (tmr_destroy s) := by
  unfold tmr_destroy
  apply counterInv_cleanup
  exact foldl_inv counterInv _
    (fun b a hb => counterInv_drainGo a _ _ hb) (List.range HASH_SIZE) s h

theorem counterInv_step (op : Op) {s : TmrState} (h : counterInv s) :
    counterInv (stepOp op s) := by
  cases op with
  | create ok now cb arg ms per => exact counterInv_create ok now cb arg ms per h
  | cancel i =>
    simp only [stepOp]
    cases findTimer s i with
    | none => exact h
    | some t => exact counterInv_cancel t h
  | reset now i =>
    simp only [stepOp]
    cases findTimer s i with
    | none => exact h
    | some t => exact counterInv_reset now t h
  | run now => exact counterInv_run now h
  | cleanup => exact counterInv_cleanup h
  | destroy => exact counterInv_destroy h

/-- Claim C1: for every sequence of create, cancel, reset, run, cleanup
and destroy operations starting from the initialized state, at every
point between operations `alloc_count = active_count + free_count`.
(Every observation point is the state reached by some prefix, and the
prefix is itself an operation sequence.) -/
theorem claim_C1_counter_equation (ops : List Op) : counterInv (runOps ops) := by
  unfold runOps
  exact foldl_inv counterInv _ (fun b a hb => counterInv_step a hb) ops tmr_init (by simp [counterInv, tmr_init])

/-! ### Claim C3: buckets stay sorted; `l_add` placement rule -/

/-- A bucket list ordered ascending by `(tv_sec, tv_usec)` under the
`l_add` comparison (ties allowed, kept adjacent). -/
def bucketSorted (l : List Timer) : Prop :=
  List.Pairwise (fun a b => tvLe a.time b.time) l

instance (l : List Timer) : Decidable (bucketSorted l) := by
  unfold bucketSorted; infer_instance

/-- All `HASH_SIZE` buckets of the state are sorted. -/
def SortedBuckets (s : TmrState) : Prop :=
  ∀ h < HASH_SIZE, bucketSorted (s.buckets h)

instance (s : TmrState) : Decidable (SortedBuckets s) := by
  unfold SortedBuckets; infer_instance

theorem mem_l_addList {t x : Timer} : ∀ {l : List Timer},
    x ∈ l_addList t l → x = t ∨ x ∈ l := by
  intro l
  induction l with
  | nil => intro hx; simp [l_addList] at hx; exact Or.inl hx
  | cons t2 rest ih =>
    intro hx
    rw [l_addList] at hx
    split at hx
    · rcases List.mem_cons.mp hx with h1 | h1
      · exact Or.inl h1
      · exact Or.inr h1
    · rcases List.mem_cons.mp hx with h1 | h1
      · exact Or.inr (List.mem_cons.mpr (Or.inl h1))
      · rcases ih h1 with h2 | h2
        · exact Or.inl h2
        · exact Or.inr (List.mem_cons_of_mem _ h2)

theorem bucketSorted_l_addList (t : Timer) : ∀ {l : List Timer},
    bucketSorted l → bucketSorted (l_addList t l) := by
  intro l
  induction l with
  | nil => intro _; simp [l_addList, bucketSorted]
  | cons t2 rest ih =>
    intro hs
    unfold bucketSorted at hs
    rw [List.pairwise_cons] at hs
    obtain ⟨h2, hrest⟩ := hs
    rw [l_addList]
    split
    · rename_i hle
      unfold bucketSorted
      rw [List.pairwise_cons]
      constructor
      · intro x hx
        rcases List.mem_cons.mp hx with h | h
        · exact h ▸ hle
        · exact tvLe_trans hle (h2 x h)
      · rw [List.pairwise_cons]
        exact ⟨h2, hrest⟩
    · rename_i hnle
      have hle2 : tvLe t2.time t.time := by
        rcases tvLe_total t.time t2.time with h | h
        · exact absurd h hnle
        · exact h
      unfold bucketSorted
      rw [List.pairwise_cons]
      constructor
      · intro x hx
        rcases mem_l_addList hx with h | h
        · exact h ▸ hle2
        · exact h2 x h
      · exact ih hrest

theorem bucketSorted_eraseP (p : Timer → Bool) {l : List Timer}
    (h : bucketSorted l) : bucketSorted (l.eraseP p) :=
  List.Pairwise.sublist (List.eraseP_sublist l) h

theorem sorted_setBucket {s : TmrState} (h : Nat) {l : List Timer}
    (hs : SortedBuckets s) (hl : bucketSorted l) :
    SortedBuckets (setBucket s h l) := by
  intro h' hh'
  simp only [setBucket_buckets]
  split
  · exact hl
  · exact hs h' hh'

theorem sorted_l_addS {s : TmrState} (t : Timer) (hs : SortedBuckets s)
    (ht : t.hash < HASH_SIZE) : SortedBuckets (l_addS t s) :=
  sorted_setBucket _ hs (bucketSorted_l_addList t (hs _ ht))

theorem sorted_l_removeS {s : TmrState} (t : Timer) (hs : SortedBuckets s) :
    SortedBuckets (l_removeS t s) := by
  intro h' hh'
  unfold l_removeS
  simp only [setBucket_buckets]
  split
  · rename_i he
    subst he
    exact bucketSorted_eraseP _ (hs _ hh')
  · exact hs h' hh'

theorem tvHash_lt (tv : Timeval) : tvHash tv < HASH_SIZE :=
  Nat.mod_lt _ (by unfold HASH_SIZE; omega)

theorem sorted_cancel {s : TmrState} (t : Timer) (hs : SortedBuckets s) :
    SortedBuckets (tmr_cancel t s) := by
  intro h' hh'
  unfold tmr_cancel
  exact sorted_l_removeS t hs h' hh'

theorem sorted_create {s : TmrState} (ok : Bool) (now : Timeval) (cb arg : Nat)
    (ms : Int) (per : Bool) (hs : SortedBuckets s) :
    SortedBuckets (tmr_create ok now cb arg ms per s).2 := by
  unfold tmr_create
  cases hf : s.free_timers with
  | cons tf rest =>
    intro h' hh'
    exact sorted_l_addS _ hs (tvHash_lt _) h' hh'
  | nil =>
    cases ok with
    | true =>
      intro h' hh'
      exact sorted_l_addS _ hs (tvHash_lt _) h' hh'
    | false => simpa using hs

theorem sorted_reset {s : TmrState} (now : Timeval) (t : Timer)
    (hs : SortedBuckets s) : SortedBuckets (tmr_reset now t s) := by
  unfold tmr_reset
  exact sorted_l_addS _ (sorted_l_removeS _ hs) (tvHash_lt _)

theorem sorted_runChain (now : Timeval) (h : Nat) :
    ∀ (fuel : Nat) (chain : List Timer) (s : TmrState) (evs : List Fire),
      SortedBuckets s → SortedBuckets (runChain now h fuel chain s evs).1 := by
  intro fuel
  induction fuel with
  | zero => intro chain s evs hs; simpa [runChain] using hs
  | succ n ih =>
    intro chain s evs hs
    cases chain with
    | nil => simpa [runChain] using hs
    | cons t rest =>
      rw [runChain]
      split
      · simpa using hs
      · split
        · exact ih _ _ _ (sorted_l_addS _ (sorted_l_removeS _ hs) (tvHash_lt _))
        · exact ih _ _ _ (sorted_cancel t hs)

theorem sorted_run {s : TmrState} (now : Timeval) (hs : SortedBuckets s) :
    SortedBuckets (tmr_run now s).1 := by
  unfold tmr_run
  exact foldl_inv (fun (acc : TmrState × List Fire) => SortedBuckets acc.1) (runStep now)
    (fun b a hb => sorted_runChain now a _ _ _ _ hb) (List.range HASH_SIZE) (s, []) hs

theorem tmr_cleanup_buckets (s : TmrState) : (tmr_cleanup s).buckets = s.buckets := by
  induction s using tmr_cleanup.induct with
  | case1 s hf => rw [tmr_cleanup, hf]
  | case2 s tf rest hf ih => rw [tmr_cleanup, hf]; exact ih

theorem sorted_cleanup {s : TmrState} (hs : SortedBuckets s) :
    SortedBuckets (tmr_cleanup s) := by
  intro h' hh'
  rw [tmr_cleanup_buckets]
  exact hs h' hh'

theorem sorted_drainGo (h : Nat) :
    ∀ (fuel : Nat) (s : TmrState), SortedBuckets s → SortedBuckets (drainGo h fuel s) := by
  intro fuel
  induction fuel with
  | zero => intro s hs; simpa [drainGo] using hs
  | succ n ih =>
    intro s hs
    rw [drainGo]
    cases hb : s.buckets h with
    | nil => exact hs
    | cons t rest => exact ih _ (sorted_cancel t hs)

theorem sorted_destroy {s : TmrState} (hs : SortedBuckets s) :
    SortedBuckets (tmr_destroy s) := by
  unfold tmr_destroy
  apply sorted_cleanup
  exact foldl_inv SortedBuckets _ (fun b a hb => sorted_drainGo a _ _ hb)
    (List.range HASH_SIZE) s hs

theorem sorted_step (op : Op) {s : TmrState} (hs : SortedBuckets s) :
    SortedBuckets (stepOp op s) := by
  cases op with
  | create ok now cb arg ms per => exact sorted_create ok now cb arg ms per hs
  | cancel i =>
    simp only [stepOp]
    cases findTimer s i with
    | none => exact hs
    | some t => exact sorted_cancel t hs
  | reset now i =>
    simp only [stepOp]
    cases findTimer s i with
    | none => exact hs
    | some t => exact sorted_reset now t hs
  | run now => exact sorted_run now hs
  | cleanup => exact sorted_cleanup hs
  | destroy => exact sorted_destroy hs

/-- Placement rule of `l_add`: the new entry lands immediately before the
first existing entry whose time is not earlier than the new entry's time
(in particular, immediately before the first entry with an equal
trigger). -/
theorem l_addList_placement (t : Timer) : ∀ (l : List Timer),
    l_addList t l =
      l.takeWhile (fun x => !(decide (tvLe t.time x.time))) ++
        t :: l.dropWhile (fun x => !(decide (tvLe t.time x.time))) := by
  intro l
  induction l with
  | nil => simp [l_addList]
  | cons t2 rest ih =>
    rw [l_addList]
    by_cases hle : tvLe t.time t2.time
    · simp [hle, List.takeWhile_cons, List.dropWhile_cons]
    · simp [hle, List.takeWhile_cons, List.dropWhile_cons, ih]

/-- Claim C3: after every sequence of public operations every bucket list
is ordered ascending by `(tv_sec, tv_usec)`, and `l_add` places a new
entry immediately before the first existing entry whose trigger is not
earlier than the new entry's trigger. -/
theorem claim_C3_sorted_buckets (ops : List Op) :
    SortedBuckets (runOps ops) ∧
      ∀ (t : Timer) (l : List Timer),
        l_addList t l =
          l.takeWhile (fun x => !(decide (tvLe t.time x.time))) ++
            t :: l.dropWhile (fun x => !(decide (tvLe t.time x.time))) := by
  constructor
  · unfold runOps
    exact foldl_inv SortedBuckets _ (fun b a hb => sorted_step a hb) ops tmr_init
      (by intro h hh; simp [tmr_init, bucketSorted])
  · exact fun t l => l_addList_placement t l

/-! ### The minimum computed by `tmr_mstimeout` -/

/-- One step of the `gotone`/`msecs` accumulation in `tmr_mstimeout`. -/
def runMin (acc : Option Int) (m : Int) : Option Int :=
  match acc with
  | none => some m
  | some best => some (if m < best then m else best)

/-- The accumulated minimum over a list of values, `none` when the list is
empty. -/
def specMin (l : List Int) : Option Int :=
  l.foldl runMin none

/-- The head-of-bucket values inspected by `tmr_mstimeout`, in bucket
order. -/
def headVals (now : Timeval) (s : TmrState) : List Int :=
  (List.range HASH_SIZE).filterMap (fun h => ((s.buckets h).head?).map (mOf now))

/-- All active timers, in bucket order. -/
def allTimers (s : TmrState) : List Timer :=
  ((List.range HASH_SIZE).map s.buckets).flatten

/-- Millisecond distances of all active timers. -/
def allVals (now : Timeval) (s : TmrState) : List Int :=
  (allTimers s).map (mOf now)

/-- The specification-side description of `tmr_mstimeout`: the minimum of
`(trigger - now)` in (truncated) milliseconds over all active timers,
`INFTIM` when no timer is active, clamped to 500 when the minimum is not
positive. -/
def specMstimeout (now : Timeval) (s : TmrState) : Int :=
  match specMin (allVals now s) with
  | none => INFTIM
  | some m => if m ≤ 0 then 500 else m

theorem runMin_foldl_some : ∀ (l : List Int) (b : Int),
    l.foldl runMin (some b) = some (l.foldl min b) := by
  intro l
  induction l with
  | nil => intro b; rfl
  | cons x xs ih =>
    intro b
    have hx : runMin (some b) x = some (min b x) := by
      unfold runMin
      rw [min_def]
      by_cases h : x < b
      · simp [h, show b ≤ x → b = x from fun hbx => le_antisymm hbx (le_of_lt h)]
        omega
      · simp [h]
        omega
    simp only [List.foldl_cons, hx, ih]

theorem specMin_cons (x : Int) (xs : List Int) :
    specMin (x :: xs) = some (xs.foldl min x) := by
  unfold specMin
  simp only [List.foldl_cons]
  exact runMin_foldl_some xs x

theorem specMin_eq_none {l : List Int} : specMin l = none ↔ l = [] := by
  cases l with
  | nil => simp [specMin]
  | cons x xs => simp [specMin_cons]

theorem foldl_min_le_init : ∀ (xs : List Int) (b : Int), xs.foldl min b ≤ b := by
  intro xs
  induction xs with
  | nil => intro b; simp
  | cons x xs ih =>
    intro b
    simp only [List.foldl_cons]
    exact le_trans (ih (min b x)) (min_le_left b x)

theorem foldl_min_le_mem : ∀ (xs : List Int) (b y : Int), y ∈ xs → xs.foldl min b ≤ y := by
  intro xs
  induction xs with
  | nil => intro b y hy; simp at hy
  | cons x xs ih =>
    intro b y hy
    simp only [List.foldl_cons]
    rcases List.mem_cons.mp hy with h | h
    · subst h
      exact le_trans (foldl_min_le_init xs _) (min_le_right b y)
    · exact ih _ y h

theorem foldl_min_mem : ∀ (xs : List Int) (b : Int), xs.foldl min b = b ∨ xs.foldl min b ∈ xs := by
  intro xs
  induction xs with
  | nil => intro b; simp
  | cons x xs ih =>
    intro b
    simp only [List.foldl_cons]
    rcases ih (min b x) with h | h
    · rw [h, min_def]
      split
      · exact Or.inl rfl
      · exact Or.inr (List.mem_cons_self x xs)
    · exact Or.inr (List.mem_cons_of_mem x h)

theorem specMin_le {l : List Int} {m : Int} (h : specMin l = some m) :
    ∀ y ∈ l, m ≤ y := by
  cases l with
  | nil => simp [specMin] at h
  | cons x xs =>
    rw [specMin_cons] at h
    intro y hy
    rcases List.mem_cons.mp hy with h1 | h1
    · rw [h1, ← Option.some_injective _ h]
      exact foldl_min_le_init xs x
    · rw [← Option.some_injective _ h]
      exact foldl_min_le_mem xs x y h1

theorem specMin_mem {l : List Int} {m : Int} (h : specMin l = some m) : m ∈ l := by
  cases l with
  | nil => simp [specMin] at h
  | cons x xs =>
    rw [specMin_cons] at h
    have hm := Option.some_injective _ h
    rcases foldl_min_mem xs x with h1 | h1
    · rw [← hm, h1]
      exact List.mem_cons_self x xs
    · rw [← hm]
      exact List.mem_cons_of_mem x h1

/-- Two lists each of whose minima bounds the other from below have equal
accumulated minima. -/
theorem specMin_eq_of_bounds {l1 l2 : List Int}
    (hnil : l1 = [] ↔ l2 = [])
    (h12 : ∀ y ∈ l1, ∃ z ∈ l2, z ≤ y)
    (h21 : ∀ y ∈ l2, ∃ z ∈ l1, z ≤ y) :
    specMin l1 = specMin l2 := by
  cases hm1 : specMin l1 with
  | none =>
    rw [specMin_eq_none] at hm1
    have : l2 = [] := hnil.mp hm1
    rw [specMin_eq_none.mpr this]
  | some m1 =>
    cases hm2 : specMin l2 with
    | none =>
      rw [specMin_eq_none] at hm2
      subst hm2
      rw [specMin_eq_none.mpr (hnil.mpr rfl)] at hm1
      exact absurd hm1 (by simp)
    | some m2 =>
      congr 1
      have hmem1 := specMin_mem hm1
      have hmem2 := specMin_mem hm2
      obtain ⟨z1, hz1, hz1le⟩ := h12 m1 hmem1
      obtain ⟨z2, hz2, hz2le⟩ := h21 m2 hmem2
      have ha : m2 ≤ m1 := le_trans (specMin_le hm2 z1 hz1) hz1le
      have hb : m1 ≤ m2 := le_trans (specMin_le hm1 z2 hz2) hz2le
      omega

/-- The scanning fold of `tmr_mstimeout` computes the accumulated minimum
of the bucket-head values and leaves the state component untouched. -/
theorem mstimeout_fold_eq (now : Timeval) (s : TmrState) :
    ∀ (l : List Nat) (acc0 : Option Int),
      (l.foldl
        (fun (acc : Option Int × TmrState) h =>
          match (acc.2.buckets h).head? with
          | none => acc
          | some t =>
            let m := mOf now t
            match acc.1 with
            | none => (some m, acc.2)
            | some best => (some (if m < best then m else best), acc.2))
        (acc0, s)) =
      ((l.filterMap (fun h => ((s.buckets h).head?).map (mOf now))).foldl runMin acc0, s) := by
  intro l
  induction l with
  | nil => intro acc0; rfl
  | cons h0 hs ih =>
    intro acc0
    simp only [List.foldl_cons, List.filterMap_cons]
    cases hh : (s.buckets h0).head? with
    | none => simpa using ih acc0
    | some t =>
      cases acc0 with
      | none => simpa [runMin] using ih (some (mOf now t))
      | some best => simpa [runMin] using ih (some (if mOf now t < best then mOf now t else best))

/-- Rewriting `tmr_mstimeout` in terms of the accumulated minimum of the bucket-head
values. -/
theorem tmr_mstimeout_eq_headVals (now : Timeval) (s : TmrState) :
    tmr_mstimeout now s =
      match specMin (headVals now s) with
      | none => INFTIM
      | some m => if m ≤ 0 then 500 else m := by
  unfold tmr_mstimeout tmr_mstimeoutS headVals specMin
  rw [mstimeout_fold_eq now s (List.range HASH_SIZE) none]
  cases hg : List.foldl runMin none
      (List.filterMap (fun h => Option.map (mOf now) (s.buckets h).head?) (List.range HASH_SIZE)) <;>
    rfl

/-- The state component threaded through `tmr_mstimeoutS` is the input
state. -/
theorem tmr_mstimeoutS_state (now : Timeval) (s : TmrState) :
    (tmr_mstimeoutS now s).2 = s := by
  unfold tmr_mstimeoutS
  rw [mstimeout_fold_eq now s (List.range HASH_SIZE) none]
  cases ((List.range HASH_SIZE).filterMap
      (fun h => ((s.buckets h).head?).map (mOf now))).foldl runMin none <;> rfl

/-! ### Claims C2 and C8: `tmr_mstimeout` -/

theorem tvLe_refl (a : Timeval) : tvLe a a := by
  unfold tvLe; omega

/-- All active timers of the state carry normal (microseconds in
`[0, 1000000)`) trigger times. -/
def NormalBuckets (s : TmrState) : Prop :=
  ∀ h < HASH_SIZE, ∀ t ∈ s.buckets h, tvNormal t.time

instance (s : TmrState) : Decidable (NormalBuckets s) := by
  unfold NormalBuckets; infer_instance

theorem mem_allTimers {s : TmrState} {u : Timer} :
    u ∈ allTimers s ↔ ∃ h, h < HASH_SIZE ∧ u ∈ s.buckets h := by
  unfold allTimers
  simp only [List.mem_flatten, List.mem_map, List.mem_range]
  constructor
  · rintro ⟨l, ⟨h, hh, rfl⟩, hu⟩
    exact ⟨h, hh, hu⟩
  · rintro ⟨h, hh, hu⟩
    exact ⟨s.buckets h, ⟨h, hh, rfl⟩, hu⟩

theorem headVals_mem {s : TmrState} {now : Timeval} {h : Nat} {t : Timer}
    {rest : List Timer} (hh : h < HASH_SIZE) (hb : s.buckets h = t :: rest) :
    mOf now t ∈ headVals now s := by
  unfold headVals
  apply List.mem_filterMap.mpr
  exact ⟨h, List.mem_range.mpr hh, by rw [hb]; rfl⟩

theorem head_le_of_sorted {t u : Timer} {rest : List Timer}
    (hs : bucketSorted (t :: rest)) (hu : u ∈ t :: rest) :
    tvLe t.time u.time := by
  unfold bucketSorted at hs
  rw [List.pairwise_cons] at hs
  rcases List.mem_cons.mp hu with h | h
  · rw [h]; exact tvLe_refl _
  · exact hs.1 u h

theorem headVals_nil_iff {now : Timeval} {s : TmrState} :
    headVals now s = [] ↔ ∀ h < HASH_SIZE, s.buckets h = [] := by
  unfold headVals
  rw [List.filterMap_eq_nil_iff]
  constructor
  · intro hall h hh
    have := hall h (List.mem_range.mpr hh)
    cases hb : s.buckets h with
    | nil => rfl
    | cons t rest => rw [hb] at this; simp at this
  · intro hall h hh
    rw [hall h (List.mem_range.mp hh)]
    rfl

theorem allVals_nil_iff {now : Timeval} {s : TmrState} :
    allVals now s = [] ↔ ∀ h < HASH_SIZE, s.buckets h = [] := by
  unfold allVals
  rw [List.map_eq_nil_iff]
  constructor
  · intro hall h hh
    cases hb : s.buckets h with
    | nil => rfl
    | cons t rest =>
      have : t ∈ allTimers s := mem_allTimers.mpr ⟨h, hh, by rw [hb]; simp⟩
      rw [hall] at this
      simp at this
  · intro hall
    cases hA : allTimers s with
    | nil => rfl
    | cons t rest =>
      have : t ∈ allTimers s := by rw [hA]; simp
      obtain ⟨h, hh, hu⟩ := mem_allTimers.mp this
      rw [hall h hh] at hu
      simp at hu

/-- Under the sortedness and normality invariants the bucket-head minimum
equals the minimum over all active timers. -/
theorem specMin_headVals_eq_allVals {now : Timeval} {s : TmrState}
    (hs : SortedBuckets s) (hn : NormalBuckets s) :
    specMin (headVals now s) = specMin (allVals now s) := by
  apply specMin_eq_of_bounds
  · rw [headVals_nil_iff, allVals_nil_iff]
  · intro y hy
    refine ⟨y, ?_, le_refl y⟩
    unfold headVals at hy
    obtain ⟨h, hhr, hmap⟩ := List.mem_filterMap.mp hy
    cases hb : s.buckets h with
    | nil => rw [hb] at hmap; simp at hmap
    | cons t rest =>
      rw [hb] at hmap
      simp at hmap
      unfold allVals
      apply List.mem_map.mpr
      refine ⟨t, mem_allTimers.mpr ⟨h, List.mem_range.mp hhr, by rw [hb]; simp⟩, hmap⟩
  · intro y hy
    unfold allVals at hy
    obtain ⟨u, hu, hval⟩ := List.mem_map.mp hy
    obtain ⟨h, hh, hub⟩ := mem_allTimers.mp hu
    cases hb : s.buckets h with
    | nil => rw [hb] at hub; simp at hub
    | cons t rest =>
      refine ⟨mOf now t, headVals_mem hh hb, ?_⟩
      rw [← hval]
      rw [hb] at hub
      apply mOf_mono (head_le_of_sorted (hb ▸ hs h hh) hub)
      · exact hn h hh t (by rw [hb]; simp)
      · exact hn h hh u (by rw [hb]; exact hub)

/-- Claim C2: for every registry state satisfying the structural
invariants (sorted buckets, normal trigger times) and every `now`,
`tmr_mstimeout now` returns `INFTIM` exactly when no active timer exists,
and otherwise the minimum truncated-millisecond distance over all active
timers, replaced by 500 when that minimum is not positive. -/
theorem claim_C2_mstimeout_minimum (now : Timeval) (s : TmrState)
    (hs : SortedBuckets s) (hn : NormalBuckets s) :
    tmr_mstimeout now s = specMstimeout now s := by
  rw [tmr_mstimeout_eq_headVals]
  unfold specMstimeout
  rw [specMin_headVals_eq_allVals hs hn]

/-- Witness for C2: a registry holding a 1000 ms and a 2000 ms one-shot
timer, observed at the creation time. -/
theorem claim_C2_mstimeout_minimum_witness :
    SortedBuckets ((tmr_create true ⟨0, 0⟩ 1 2 1000 false
        (tmr_create true ⟨0, 0⟩ 3 4 2000 false tmr_init).2).2) ∧
      NormalBuckets ((tmr_create true ⟨0, 0⟩ 1 2 1000 false
        (tmr_create true ⟨0, 0⟩ 3 4 2000 false tmr_init).2).2) ∧
      tmr_mstimeout ⟨0, 0⟩ ((tmr_create true ⟨0, 0⟩ 1 2 1000 false
          (tmr_create true ⟨0, 0⟩ 3 4 2000 false tmr_init).2).2) =
        specMstimeout ⟨0, 0⟩ ((tmr_create true ⟨0, 0⟩ 1 2 1000 false
          (tmr_create true ⟨0, 0⟩ 3 4 2000 false tmr_init).2).2) :=
  ⟨by decide, by decide,
    claim_C2_mstimeout_minimum _ _ (by decide) (by decide)⟩

/-- Claim C8: `tmr_mstimeout` is read-only: it returns the state it was
given unchanged (bucket lists, free list and counters included), and a
second call on that state with the same `now` returns the same value. -/
theorem claim_C8_mstimeout_readonly (now : Timeval) (s : TmrState) :
    (tmr_mstimeoutS now s).2 = s ∧
      (tmr_mstimeoutS now ((tmr_mstimeoutS now s).2)).1 = (tmr_mstimeoutS now s).1 := by
  refine ⟨tmr_mstimeoutS_state now s, ?_⟩
  rw [tmr_mstimeoutS_state now s]

/-! ### Claims C7 and C10: allocation behaviour of `tmr_create` -/

/-- Claim C7: `tmr_create` returns no handle exactly when the free list is
empty and the underlying allocation fails; in that case the whole state
(bucket lists, free list, counters) is returned unchanged. -/
theorem claim_C7_create_failure (ok : Bool) (now : Timeval) (cb arg : Nat)
    (ms : Int) (per : Bool) (s : TmrState) :
    ((tmr_create ok now cb arg ms per s).1 = none ↔
        (s.free_timers = [] ∧ ok = false)) ∧
      ((tmr_create ok now cb arg ms per s).1 = none →
        (tmr_create ok now cb arg ms per s).2 = s) := by
  unfold tmr_create
  cases hf : s.free_timers with
  | cons tf rest => simp [hf]
  | nil =>
    cases ok with
    | true => simp
    | false => simp

/-- Claim C10: with a non-empty free list `tmr_create` cannot fail: it
returns a handle, behaves identically whatever the allocation oracle says
(no fresh allocation is attempted), pops exactly the head of the free
list and leaves `alloc_count` and the allocator untouched. -/
theorem claim_C10_create_freelist (ok : Bool) (now : Timeval) (cb arg : Nat)
    (ms : Int) (per : Bool) (s : TmrState) (hne : s.free_timers ≠ []) :
    (tmr_create ok now cb arg ms per s).1.isSome ∧
      tmr_create ok now cb arg ms per s = tmr_create true now cb arg ms per s ∧
      (tmr_create ok now cb arg ms per s).2.free_timers = s.free_timers.tail ∧
      (tmr_create ok now cb arg ms per s).2.free_count = s.free_count - 1 ∧
      (tmr_create ok now cb arg ms per s).2.alloc_count = s.alloc_count ∧
      (tmr_create ok now cb arg ms per s).2.next_id = s.next_id := by
  unfold tmr_create
  cases hf : s.free_timers with
  | nil => exact absurd hf hne
  | cons tf rest => simp [l_addS]

/-- Witness for C10: a pool holding one free record. -/
theorem claim_C10_create_freelist_witness :
    TmrState.free_timers
        { buckets := fun _ => []
          free_timers := [{ id := 0, cb := 0, arg := 0, time := ⟨0, 0⟩
                            msecs := 0, periodic := false, hash := 0 }]
          alloc_count := 1
          active_count := 0
          free_count := 1
          next_id := 1 } ≠ [] ∧
      (tmr_create false ⟨5, 0⟩ 1 2 250 true
          { buckets := fun _ => []
            free_timers := [{ id := 0, cb := 0, arg := 0, time := ⟨0, 0⟩
                              msecs := 0, periodic := false, hash := 0 }]
            alloc_count := 1
            active_count := 0
            free_count := 1
            next_id := 1 }).1.isSome :=
  ⟨by decide,
    (claim_C10_create_freelist false ⟨5, 0⟩ 1 2 250 true _ (by decide)).1⟩

/-! ### Claim C9: sub-millisecond gaps and the 500 ms clamp -/

/-- Counterexample to C9 as stated: a single timer due at `(1 s, 0 us)`
observed at `now = (0 s, 999999 us)`.  Every active trigger is strictly
after `now` and the earliest gap is one microsecond (less than one
millisecond), yet `tmr_mstimeout` returns 1, not 500: the truncation of
`(0 - 999999) / 1000` toward zero gives `-999`, so the computed distance
is `1000 - 999 = 1 > 0` and the clamp is not taken. -/
theorem claim_C9_counterexample :
    (∀ t ∈ allTimers (tmr_create true ⟨0, 999000⟩ 1 2 1 false tmr_init).2,
        tvAfter t.time ⟨0, 999999⟩) ∧
      (∃ t ∈ allTimers (tmr_create true ⟨0, 999000⟩ 1 2 1 false tmr_init).2,
        0 < usTotal t.time - usTotal ⟨0, 999999⟩ ∧
          usTotal t.time - usTotal ⟨0, 999999⟩ < 1000) ∧
      tmr_mstimeout ⟨0, 999999⟩ (tmr_create true ⟨0, 999000⟩ 1 2 1 false tmr_init).2 = 1 ∧
      tmr_mstimeout ⟨0, 999999⟩ (tmr_create true ⟨0, 999000⟩ 1 2 1 false tmr_init).2 ≠ 500 := by
  refine ⟨by decide, by decide, by decide, by decide⟩

/-- Amended C9: the sub-millisecond rounding argument holds when the
earliest trigger lies in the same second as `now`: if every active
trigger is strictly after `now` and some active timer's trigger is in
`now`'s second, less than 1000 microseconds ahead, then the truncating
millisecond computation yields 0 for it, the non-positive clamp fires,
and `tmr_mstimeout` returns 500.  (When the sub-millisecond gap crosses
a second boundary the truncation rounds the negative microsecond part
toward zero and the result is 1 instead, as the counterexample shows.) -/
theorem claim_C9_amended (now : Timeval) (s : TmrState)
    (hs : SortedBuckets s) (hn : NormalBuckets s)
    (hafter : ∀ t ∈ allTimers s, tvAfter t.time now)
    (hwit : ∃ t ∈ allTimers s, t.time.tv_sec = now.tv_sec ∧
      now.tv_usec < t.time.tv_usec ∧ t.time.tv_usec < now.tv_usec + 1000) :
    tmr_mstimeout now s = 500 := by
  have hnonneg : ∀ v ∈ headVals now s, 0 ≤ v := by
    intro v hv
    obtain ⟨h, hhr, hmap⟩ := List.mem_filterMap.mp hv
    cases hb : s.buckets h with
    | nil => rw [hb] at hmap; simp at hmap
    | cons t rest =>
      rw [hb] at hmap
      simp at hmap
      rw [← hmap]
      have ht : t ∈ allTimers s :=
        mem_allTimers.mpr ⟨h, List.mem_range.mp hhr, by rw [hb]; simp⟩
      exact mOf_nonneg (hafter t ht) (hn h (List.mem_range.mp hhr) t (by rw [hb]; simp))
        (by
          obtain ⟨u, hu, hsec, h1, h2⟩ := hwit
          obtain ⟨h2', hh2, hub⟩ := mem_allTimers.mp hu
          have := hn h2' hh2 u hub
          unfold tvNormal at this
          omega)
  have hzero : (0 : Int) ∈ headVals now s := by
    obtain ⟨u, hu, hsec, h1, h2⟩ := hwit
    obtain ⟨h, hh, hub⟩ := mem_allTimers.mp hu
    cases hb : s.buckets h with
    | nil => rw [hb] at hub; simp at hub
    | cons t rest =>
      have hmem : mOf now t ∈ headVals now s := headVals_mem hh hb
      have hule : mOf now t ≤ mOf now u := by
        rw [hb] at hub
        apply mOf_mono (head_le_of_sorted (hb ▸ hs h hh) hub)
        · exact hn h hh t (by rw [hb]; simp)
        · exact hn h hh u (by rw [hb]; exact hub)
      have hu0 : mOf now u = 0 := mOf_subms hsec h1 (by omega)
      have ht0 : mOf now t = 0 :=
        le_antisymm (by rw [← hu0]; exact hule) (hnonneg _ hmem)
      rw [← ht0]
      exact hmem
  rw [tmr_mstimeout_eq_headVals]
  cases hm : specMin (headVals now s) with
  | none =>
    rw [specMin_eq_none] at hm
    rw [hm] at hzero
    simp at hzero
  | some m =>
    have h1 : m ≤ 0 := specMin_le hm 0 hzero
    have h2 : 0 ≤ m := hnonneg m (specMin_mem hm)
    simp [show m ≤ 0 from h1]

/-- Witness for the amended C9: one timer due at `(0 s, 500000 us)`
observed one microsecond earlier, inside the same second. -/
theorem claim_C9_amended_witness :
    SortedBuckets (tmr_create true ⟨0, 500000⟩ 1 2 0 false tmr_init).2 ∧
      tmr_mstimeout ⟨0, 499999⟩ (tmr_create true ⟨0, 500000⟩ 1 2 0 false tmr_init).2 = 500 :=
  ⟨by decide,
    claim_C9_amended ⟨0, 499999⟩ _ (by decide) (by decide) (by decide) (by decide)⟩

/-! ### Single-timer executions of `tmr_run` (claims C4 and C5) -/

attribute [ext] TmrState

/-- Registry holding exactly one active timer `t` (in bucket `t.hash`),
with one record allocated and none free. -/
def singleActive (t : Timer) : TmrState :=
  { buckets := fun h => if h = t.hash then [t] else []
    free_timers := []
    alloc_count := 1
    active_count := 1
    free_count := 0
    next_id := 1 }

/-- Registry whose only record sits on the free list. -/
def singleFree (t : Timer) : TmrState :=
  { buckets := fun _ => []
    free_timers := [t]
    alloc_count := 1
    active_count := 0
    free_count := 1
    next_id := 1 }

/-- The timer record built by `tmr_create` on the `malloc` path out of the
initial state. -/
def mkCreated (now : Timeval) (cb arg : Nat) (ms : Int) (per : Bool) : Timer :=
  { id := 0, cb := cb, arg := arg, time := addMsecs now ms, msecs := ms
    periodic := per, hash := tvHash (addMsecs now ms) }

/-- Creating in the empty registry yields exactly the one-timer state. -/
theorem create_single (now : Timeval) (cb arg : Nat) (ms : Int) (per : Bool) :
    tmr_create true now cb arg ms per tmr_init =
      (some (mkCreated now cb arg ms per), singleActive (mkCreated now cb arg ms per)) := by
  unfold tmr_create tmr_init mkCreated singleActive l_addS setBucket l_addList
  simp

theorem runChain_chain_nil (now : Timeval) (h : Nat) (fuel : Nat) (s : TmrState)
    (evs : List Fire) : runChain now h fuel [] s evs = (s, evs) := by
  cases fuel <;> rfl

theorem runChain_break (now : Timeval) (h : Nat) {t : Timer} (rest : List Timer)
    (fuel : Nat) (s : TmrState) (evs : List Fire) (hb : tvAfter t.time now) :
    runChain now h fuel (t :: rest) s evs = (s, evs) := by
  cases fuel with
  | zero => rfl
  | succ n => rw [runChain, if_pos hb]

/-- A bucket that contributes nothing to the walk: empty, or headed by a
timer that is not yet due. -/
def inertAt (now : Timeval) (s : TmrState) (h : Nat) : Prop :=
  s.buckets h = [] ∨ ∃ t rest, s.buckets h = t :: rest ∧ tvAfter t.time now

theorem runStep_inert {now : Timeval} {acc : TmrState × List Fire} {h : Nat}
    (hc : inertAt now acc.1 h) : runStep now acc h = acc := by
  unfold runStep
  rcases hc with hb | ⟨t, rest, hb, haft⟩
  · rw [hb, runChain_chain_nil]
  · rw [hb, runChain_break now h rest _ _ _ haft]

theorem fold_inert (now : Timeval) :
    ∀ (l : List Nat) (acc : TmrState × List Fire),
      (∀ h ∈ l, inertAt now acc.1 h) → l.foldl (runStep now) acc = acc := by
  intro l
  induction l with
  | nil => intro acc _; rfl
  | cons h0 rest ih =>
    intro acc hc
    rw [List.foldl_cons, runStep_inert (hc h0 (by simp))]
    exact ih acc (fun h hh => hc h (by simp [hh]))

theorem bucketFuel_cons_pos (now : Timeval) (t : Timer) (l : List Timer) :
    1 ≤ bucketFuel now (t :: l) := by
  unfold bucketFuel
  simp
  omega

/-- Walking a due singleton chain whose timer is periodic: one firing,
then `l_resort`. -/
theorem runChain_single_periodic (now : Timeval) (h : Nat) (t : Timer)
    (s : TmrState) (evs : List Fire) (fuel : Nat) (hf : 1 ≤ fuel)
    (hdue : ¬ tvAfter t.time now) (hper : t.periodic = true) :
    runChain now h fuel [t] s evs =
      (l_addS (resched t) (l_removeS t s),
        evs ++ [{ cb := t.cb, arg := t.arg, now := now }]) := by
  obtain ⟨n, rfl⟩ : ∃ n, fuel = n + 1 := ⟨fuel - 1, by omega⟩
  rw [runChain, if_neg hdue]
  simp only [hper, if_true, ite_self]
  rw [runChain_chain_nil]

/-- Walking a due singleton chain whose timer is one-shot: one firing,
then `tmr_cancel`. -/
theorem runChain_single_oneshot (now : Timeval) (h : Nat) (t : Timer)
    (s : TmrState) (evs : List Fire) (fuel : Nat) (hf : 1 ≤ fuel)
    (hdue : ¬ tvAfter t.time now) (hper : t.periodic = false) :
    runChain now h fuel [t] s evs =
      (tmr_cancel t s, evs ++ [{ cb := t.cb, arg := t.arg, now := now }]) := by
  obtain ⟨n, rfl⟩ : ∃ n, fuel = n + 1 := ⟨fuel - 1, by omega⟩
  rw [runChain, if_neg hdue]
  simp only [hper, Bool.false_eq_true, if_false]
  rw [runChain_chain_nil]

theorem state_after_periodic (t : Timer) :
    l_addS (resched t) (l_removeS t (singleActive t)) = singleActive (resched t) := by
  unfold l_addS l_removeS singleActive setBucket resched
  ext h' : 2
  · by_cases h1 : h' = tvHash (addMsecs t.time t.msecs) <;>
      by_cases h2 : h' = t.hash <;>
        simp [h1, h2, l_addList] <;>
          split_ifs <;> simp [l_addList]
  · rfl
  · rfl
  · rfl
  · rfl
  · rfl

theorem state_after_oneshot (t : Timer) :
    tmr_cancel t (singleActive t) = singleFree t := by
  unfold tmr_cancel l_removeS singleActive singleFree setBucket
  ext h' : 2
  · by_cases h2 : h' = t.hash <;> simp [h2]
  · rfl
  · rfl
  · rfl
  · rfl
  · rfl

theorem singleActive_inert (now : Timeval) (t : Timer) (haft : tvAfter t.time now)
    (h : Nat) : inertAt now (singleActive t) h := by
  unfold inertAt singleActive
  simp only []
  split
  · exact Or.inr ⟨t, [], rfl, haft⟩
  · exact Or.inl rfl

theorem singleFree_inert (now : Timeval) (t : Timer) (h : Nat) :
    inertAt now (singleFree t) h := Or.inl rfl

/-- Splitting the bucket scan around the one interesting index. -/
theorem range_split (h : Nat) (hlt : h < HASH_SIZE) :
    List.range HASH_SIZE =
      (List.range h ++ [h]) ++
        (List.range (HASH_SIZE - h - 1)).map (fun j => h + 1 + j) := by
  rw [← List.range_succ]
  conv_lhs => rw [show HASH_SIZE = (h + 1) + (HASH_SIZE - h - 1) from by omega]
  exact List.range_add _ _

/-- Running `tmr_run` on a registry holding one due periodic timer whose
rescheduled trigger is not yet due: exactly one firing, and the timer is
rescheduled. -/
theorem tmr_run_single_periodic (now : Timeval) (t : Timer)
    (hlt : t.hash < HASH_SIZE) (hdue : ¬ tvAfter t.time now)
    (hper : t.periodic = true) (hnext : tvAfter (resched t).time now) :
    tmr_run now (singleActive t) =
      (singleActive (resched t), [{ cb := t.cb, arg := t.arg, now := now }]) := by
  unfold tmr_run
  rw [range_split t.hash hlt, List.foldl_append, List.foldl_append]
  rw [fold_inert now (List.range t.hash) (singleActive t, [])
    (by
      intro h hh
      have : h < t.hash := List.mem_range.mp hh
      unfold inertAt singleActive
      simp only []
      rw [if_neg (by omega)]
      exact Or.inl rfl)]
  have hstep : (List.foldl (runStep now) (singleActive t, []) [t.hash]) =
      (singleActive (resched t), [{ cb := t.cb, arg := t.arg, now := now }]) := by
    rw [List.foldl_cons, List.foldl_nil]
    unfold runStep
    have hb : (singleActive t).buckets t.hash = [t] := by
      unfold singleActive
      simp
    rw [hb, runChain_single_periodic now t.hash t _ _ _ (bucketFuel_cons_pos now t []) hdue hper]
    rw [state_after_periodic]
    rfl
  rw [hstep]
  exact fold_inert now _ _ (fun h _ => singleActive_inert now (resched t) hnext h)

/-- Running `tmr_run` on a registry holding one due one-shot timer: exactly one
firing, and the record moves to the free list. -/
theorem tmr_run_single_oneshot (now : Timeval) (t : Timer)
    (hlt : t.hash < HASH_SIZE) (hdue : ¬ tvAfter t.time now)
    (hper : t.periodic = false) :
    tmr_run now (singleActive t) =
      (singleFree t, [{ cb := t.cb, arg := t.arg, now := now }]) := by
  unfold tmr_run
  rw [range_split t.hash hlt, List.foldl_append, List.foldl_append]
  rw [fold_inert now (List.range t.hash) (singleActive t, [])
    (by
      intro h hh
      have : h < t.hash := List.mem_range.mp hh
      unfold inertAt singleActive
      simp only []
      rw [if_neg (by omega)]
      exact Or.inl rfl)]
  have hstep : (List.foldl (runStep now) (singleActive t, []) [t.hash]) =
      (singleFree t, [{ cb := t.cb, arg := t.arg, now := now }]) := by
    rw [List.foldl_cons, List.foldl_nil]
    unfold runStep
    have hb : (singleActive t).buckets t.hash = [t] := by
      unfold singleActive
      simp
    rw [hb, runChain_single_oneshot now t.hash t _ _ _ (bucketFuel_cons_pos now t []) hdue hper]
    rw [state_after_oneshot]
    rfl
  rw [hstep]
  exact fold_inert now _ _ (fun h _ => singleFree_inert now t h)

/-! ### Claim C5: one-shot round trip -/

/-- Claim C5: creating a one-shot timer with delay `d ≥ 0` at `t0` in the
empty registry and running once at `now = t0 + d` (the trigger) invokes
the callback exactly once with `(arg, now)`, after which the record sits
on the pool free list and no bucket holds any timer. -/
theorem claim_C5_oneshot_roundtrip (t0 : Timeval) (d : Int) (cb arg : Nat)
    (hd : 0 ≤ d) :
    (tmr_run (addMsecs t0 d) (tmr_create true t0 cb arg d false tmr_init).2).2 =
        [{ cb := cb, arg := arg, now := addMsecs t0 d }] ∧
      (tmr_run (addMsecs t0 d) (tmr_create true t0 cb arg d false tmr_init).2).1.free_timers =
        [mkCreated t0 cb arg d false] ∧
      ∀ h, (tmr_run (addMsecs t0 d) (tmr_create true t0 cb arg d false tmr_init).2).1.buckets h = [] := by
  have hcreate : (tmr_create true t0 cb arg d false tmr_init).2 =
      singleActive (mkCreated t0 cb arg d false) := by
    rw [create_single]
  rw [hcreate]
  have hdue : ¬ tvAfter (mkCreated t0 cb arg d false).time (addMsecs t0 d) :=
    not_tvAfter_self _
  rw [tmr_run_single_oneshot (addMsecs t0 d) (mkCreated t0 cb arg d false)
    (tvHash_lt _) hdue rfl]
  exact ⟨rfl, rfl, fun h => rfl⟩

/-- Witness for C5: delay 1000 ms from `(0, 0)`. -/
theorem claim_C5_oneshot_roundtrip_witness :
    (0 : Int) ≤ 1000 ∧
      (tmr_run (addMsecs ⟨0, 0⟩ 1000) (tmr_create true ⟨0, 0⟩ 7 11 1000 false tmr_init).2).2 =
        [{ cb := 7, arg := 11, now := addMsecs ⟨0, 0⟩ 1000 }] :=
  ⟨by decide, (claim_C5_oneshot_roundtrip ⟨0, 0⟩ 1000 7 11 (by decide)).1⟩

/-! ### Claim C4: periodic drift-freedom on an exact schedule -/

/-- Scheduled triggers of a periodic timer of period `p` created at `t0`:
`trigSeq k` is the `(k+1)`-st trigger, each one `p` milliseconds after the
previous one. -/
def trigSeq (t0 : Timeval) (p : Int) : Nat → Timeval
  | 0 => addMsecs t0 p
  | k + 1 => addMsecs (trigSeq t0 p k) p

/-- The record of the periodic timer when its trigger is `tv`. -/
def mkPeriodic (cb arg : Nat) (p : Int) (tv : Timeval) : Timer :=
  { id := 0, cb := cb, arg := arg, time := tv, msecs := p
    periodic := true, hash := tvHash tv }

/-- States of the drift experiment: create the periodic timer at `t0` in
the empty registry, then call `tmr_run` exactly at each scheduled
trigger. -/
def driftStates (t0 : Timeval) (cb arg : Nat) (p : Int) : Nat → TmrState
  | 0 => (tmr_create true t0 cb arg p true tmr_init).2
  | k + 1 => (tmr_run (trigSeq t0 p k) (driftStates t0 cb arg p k)).1

theorem trigSeq_normal (t0 : Timeval) (p : Int) (h0 : tvNormal t0) (hp : 0 ≤ p) :
    ∀ k, tvNormal (trigSeq t0 p k) := by
  intro k
  induction k with
  | zero => exact addMsecs_normal h0 hp
  | succ k ih => exact addMsecs_normal ih hp

theorem drift_inv (t0 : Timeval) (cb arg : Nat) (p : Int)
    (h0 : tvNormal t0) (hp : 1 ≤ p) :
    ∀ k, driftStates t0 cb arg p k =
      singleActive (mkPeriodic cb arg p (trigSeq t0 p k)) := by
  intro k
  induction k with
  | zero =>
    show (tmr_create true t0 cb arg p true tmr_init).2 = _
    rw [create_single]
    rfl
  | succ k ih =>
    show (tmr_run (trigSeq t0 p k) (driftStates t0 cb arg p k)).1 = _
    rw [ih]
    rw [tmr_run_single_periodic (trigSeq t0 p k) (mkPeriodic cb arg p (trigSeq t0 p k))
      (tvHash_lt _) (not_tvAfter_self _) rfl
      (addMsecs_after (trigSeq_normal t0 p h0 (by omega) k) hp)]
    rfl

/-- Claim C4: a periodic timer of period `p ≥ 1` ms created at a normal
`t0`, alone in the registry, with `tmr_run` called exactly at each
scheduled trigger `trigSeq k`, fires exactly once per call, and after
each firing its trigger is the previous scheduled trigger advanced by
`p` (`trigSeq (k+1) = addMsecs (trigSeq k) p`) — which on this exact
schedule coincides with `now + p`. -/
theorem claim_C4_periodic_drift (t0 : Timeval) (cb arg : Nat) (p : Int) (k : Nat)
    (h0 : tvNormal t0) (hp : 1 ≤ p) :
    (tmr_run (trigSeq t0 p k) (driftStates t0 cb arg p k)).2 =
        [{ cb := cb, arg := arg, now := trigSeq t0 p k }] ∧
      driftStates t0 cb arg p (k + 1) =
        singleActive (mkPeriodic cb arg p (addMsecs (trigSeq t0 p k) p)) := by
  have hrun := tmr_run_single_periodic (trigSeq t0 p k)
    (mkPeriodic cb arg p (trigSeq t0 p k)) (tvHash_lt _) (not_tvAfter_self _) rfl
    (addMsecs_after (trigSeq_normal t0 p h0 (by omega) k) hp)
  constructor
  · rw [drift_inv t0 cb arg p h0 hp k, hrun]
    rfl
  · show (tmr_run (trigSeq t0 p k) (driftStates t0 cb arg p k)).1 = _
    rw [drift_inv t0 cb arg p h0 hp k, hrun]
    rfl

/-- Witness for C4: period 100 ms from `(0, 0)`, second run call. -/
theorem claim_C4_periodic_drift_witness :
    tvNormal ⟨0, 0⟩ ∧ (1 : Int) ≤ 100 ∧
      (tmr_run (trigSeq ⟨0, 0⟩ 100 1) (driftStates ⟨0, 0⟩ 1 2 100 1)).2 =
        [{ cb := 1, arg := 2, now := trigSeq ⟨0, 0⟩ 100 1 }] :=
  ⟨by decide, by decide,
    (claim_C4_periodic_drift ⟨0, 0⟩ 1 2 100 1 (by decide) (by decide)).1⟩

/-! ### Claim C6: the 250 ms scenario fires once, not twice -/

/-- Counterexample to C6 as stated: periodic timer, delay 100 ms, created
at `(0, 0)` (trigger 100 ms, bucket 36); one `tmr_run` at `(0, 250000)`
fires it once, not twice.  The reschedule moves the timer to trigger
200 ms whose bucket (5) precedes bucket 36 in the scan order, so the
second due trigger is not reached in the same call; afterwards the
trigger is 200 ms, and the bucket of a 300 ms trigger (41) is empty. -/
theorem claim_C6_counterexample :
    (tmr_run ⟨0, 250000⟩ (tmr_create true ⟨0, 0⟩ 7 11 100 true tmr_init).2).2.length = 1 ∧
      ¬ ((tmr_run ⟨0, 250000⟩ (tmr_create true ⟨0, 0⟩ 7 11 100 true tmr_init).2).2.length = 2) ∧
      (tmr_run ⟨0, 250000⟩ (tmr_create true ⟨0, 0⟩ 7 11 100 true tmr_init).2).1.buckets 5 =
        [{ id := 0, cb := 7, arg := 11, time := ⟨0, 200000⟩, msecs := 100
           periodic := true, hash := 5 }] ∧
      (tmr_run ⟨0, 250000⟩ (tmr_create true ⟨0, 0⟩ 7 11 100 true tmr_init).2).1.buckets
          (tvHash ⟨0, 300000⟩) = [] := by
  exact ⟨by decide, by decide, by decide, by decide⟩

/-- Amended C6: in that scenario the single call fires the callback
exactly once (at `now`), leaves the timer with trigger 200 ms in bucket
5 and bucket 36 empty; a second call at the same `now` fires the 200 ms
trigger (so the two due triggers take two calls, not one). -/
theorem claim_C6_amended :
    (tmr_run ⟨0, 250000⟩ (tmr_create true ⟨0, 0⟩ 7 11 100 true tmr_init).2).2 =
        [{ cb := 7, arg := 11, now := ⟨0, 250000⟩ }] ∧
      (tmr_run ⟨0, 250000⟩ (tmr_create true ⟨0, 0⟩ 7 11 100 true tmr_init).2).1.buckets 36 = [] ∧
      (tmr_run ⟨0, 250000⟩
          (tmr_run ⟨0, 250000⟩ (tmr_create true ⟨0, 0⟩ 7 11 100 true tmr_init).2).1).2 =
        [{ cb := 7, arg := 11, now := ⟨0, 250000⟩ }] := by
  exact ⟨by decide, by decide, by decide⟩
